import Mathlib

/-!
Shallow embedding of `src/dedup_store.py` (class `DeduplicationStore`).

The Python class keeps two tiers of membership state for composite keys
`(topic, event_id)`:

* an in-memory set `_processed_cache` (the Cache), and
* a SQLite table `processed_events (topic, event_id, processed_at)` with
  `PRIMARY KEY (topic, event_id)` (the Ledger).

We embed the mutable object as explicit state passing over a `Store`
structure.  SQLite's `CURRENT_TIMESTAMP` default is modelled by a `Nat`
timestamp supplied by the environment at write time.  Fallible database
calls are modelled by explicit Boolean fault flags: a flag set to `true`
means the corresponding SQLite call raises.  Where the Python code wraps a
call in `try/except` the embedded function stays total (the exception is
caught and logged); where it does not, the embedded function returns
`Except DBError`.
-/

namespace DedupStore

/-- A composite key `(topic, event_id)`. -/
abbrev Key := String × String

/-- One row of the `processed_events` table. -/
structure Row where
  topic : String
  event_id : String
  processed_at : Nat
deriving Repr, DecidableEq

/-- The composite key of a row. -/
def Row.key (r : Row) : Key := (r.topic, r.event_id)

/-- The `processed_events` table, in insertion order. -/
abbrev Ledger := List Row

/-- The keys present in the Ledger. -/
def ledgerKeys (l : Ledger) : List Key := l.map Row.key

/-- `CACHE_SIZE = 100000` (line 8 of the source). -/
def CACHE_SIZE : Nat := 100000

/-- The membership state of a `DeduplicationStore` instance:
`cache` embeds `self._processed_cache` (a set: only membership matters),
`ledger` embeds the rows of `processed_events`. -/
structure Store where
  cache : List Key
  ledger : Ledger
deriving Repr, DecidableEq

/-- Python `set.add`: idempotent insertion. -/
def cacheAdd (c : List Key) (k : Key) : List Key :=
  if k ∈ c then c else k :: c

/-- `INSERT OR IGNORE INTO processed_events (topic, event_id) VALUES (?, ?)`:
appends a row with `processed_at = ts` only when the composite key is
absent; an existing row (including its timestamp) is left untouched. -/
def insertIfAbsent (l : Ledger) (k : Key) (ts : Nat) : Ledger :=
  if k ∈ ledgerKeys l then l else l ++ [⟨k.1, k.2, ts⟩]

/-- Kinds of SQLite failures relevant to the embedding. -/
inductive DBError
  | initFailure
  | lookupReadFailure
  | loadFailure
deriving Repr, DecidableEq

/-- `is_processed` (lines 54-71).  Checks the Cache first; on a miss it runs
the fallback `SELECT` (which is NOT wrapped in `try/except` in the source,
so a raised exception propagates: modelled by `.error`), promotes a Ledger
hit into the Cache and returns `true`, otherwise returns `false`.
`selectFails` is the fault flag of the fallback `SELECT`. -/
def is_processed (s : Store) (k : Key) (selectFails : Bool) :
    Except DBError (Bool × Store) :=
  if k ∈ s.cache then .ok (true, s)
  else if selectFails then .error .lookupReadFailure
  else if k ∈ ledgerKeys s.ledger then .ok (true, { s with cache := cacheAdd s.cache k })
  else .ok (false, s)

/-- `mark_processed` (lines 73-87).  Adds the key to the Cache
unconditionally, then runs `INSERT OR IGNORE` + `commit` inside
`try/except`: on failure (`insertFails = true`) the exception is caught and
logged and the Ledger is unchanged; the call returns normally either way. -/
def mark_processed (s : Store) (k : Key) (ts : Nat) (insertFails : Bool) : Store :=
  let s1 : Store := { s with cache := cacheAdd s.cache k }
  if insertFails then s1
  else { s1 with ledger := insertIfAbsent s1.ledger k ts }

/-- Insertion step of sorting by `processed_at` descending. -/
def insertDesc (r : Row) : Ledger → Ledger
  | [] => [r]
  | x :: xs => if x.processed_at ≤ r.processed_at then r :: x :: xs else x :: insertDesc r xs

/-- `ORDER BY processed_at DESC`: insertion sort, most recent first. -/
def sortDesc : Ledger → Ledger
  | [] => []
  | r :: rest => insertDesc r (sortDesc rest)

/-- The warm-up query
`SELECT topic, event_id FROM processed_events ORDER BY processed_at DESC LIMIT limit`. -/
def recent_keys (l : Ledger) (limit : Nat) : List Key :=
  ((sortDesc l).take limit).map Row.key

/-- `_load_cache` (lines 41-52).  The query is wrapped in `try/except`: on
failure (`loadFails = true`) the exception is caught and logged and the
cache keeps its previous contents (`prevCache`, the empty set at
construction time); on success the cache is replaced by the query result. -/
def _load_cache (l : Ledger) (loadFails : Bool) (prevCache : List Key) : List Key :=
  if loadFails then prevCache else recent_keys l CACHE_SIZE

/-- Construction (`__init__` / `_initialize_db`, lines 15-39) over a database
that already holds the rows `dbLedger` (`CREATE TABLE IF NOT EXISTS` keeps
them).  Connecting / ensuring the schema is not wrapped in `try/except`: on
failure (`connFails = true`) the exception propagates and no store is
produced.  Afterwards `_load_cache` runs with the empty initial cache. -/
def mkStore (dbLedger : Ledger) (connFails : Bool) (loadFails : Bool) :
    Except DBError Store :=
  if connFails then .error .initFailure
  else .ok { cache := _load_cache dbLedger loadFails [], ledger := dbLedger }

/-- `close` (lines 90-93): releases the connection handle; the membership
state (cache contents, persisted rows) is untouched. -/
def close (s : Store) : Store := s

/-- A fresh store over an empty database file. -/
def initStore : Store := { cache := [], ledger := [] }

/-- One operation of the public surface, with its fault flags. -/
inductive Op
  | isProc (k : Key) (selectFails : Bool)
  | mark (k : Key) (ts : Nat) (insertFails : Bool)
  | restart (loadFails : Bool)
  | close
deriving Repr, DecidableEq

/-- Apply one operation to the store state.  A raised exception in
`is_processed` leaves the state unchanged (it is thrown before any mutation
of the cache).  `restart` models `close` followed by reconstruction over the
same database file (successful connection, possibly failing warm-up). -/
def step (s : Store) : Op → Store
  | .isProc k f =>
      match is_processed s k f with
      | .ok (_, s') => s'
      | .error _ => s
  | .mark k ts f => mark_processed s k ts f
  | .restart lf => { cache := _load_cache s.ledger lf [], ledger := s.ledger }
  | .close => close s

/-- Run a sequence of operations. -/
def run (s : Store) : List Op → Store
  | [] => s
  | op :: ops => run (step s op) ops

/-- The trace that marks `keys 0, ..., keys (n-1)` processed in sequence,
at strictly increasing write timestamps and without write faults. -/
def markOps (keys : Nat → Key) (n : Nat) : List Op :=
  (List.range n).map fun i => Op.mark (keys i) i false

/-- The Ledger row such a trace records for the i-th key. -/
def rowOf (keys : Nat → Key) (i : Nat) : Row := ⟨(keys i).1, (keys i).2, i⟩

/-- A concrete injective family of keys, for instantiating bulk scenarios
on explicit inputs. -/
def wkeys : Nat → Key := fun i => (String.mk (List.replicate i 'a'), "")

/-! ### Basic lemmas about the cache and the ledger -/

theorem mem_cacheAdd {c : List Key} {k x : Key} :
    x ∈ cacheAdd c k ↔ x = k ∨ x ∈ c := by
  simp only [cacheAdd]
  split
  · constructor
    · exact Or.inr
    · rintro (rfl | h) <;> assumption
  · simp [List.mem_cons]

theorem self_mem_cacheAdd (c : List Key) (k : Key) : k ∈ cacheAdd c k :=
  mem_cacheAdd.mpr (Or.inl rfl)

theorem cacheAdd_of_mem {c : List Key} {k : Key} (h : k ∈ c) : cacheAdd c k = c := by
  simp [cacheAdd, h]

theorem Row.key_mk (k : Key) (ts : Nat) : Row.key ⟨k.1, k.2, ts⟩ = k := rfl

theorem ledgerKeys_append (l1 l2 : Ledger) :
    ledgerKeys (l1 ++ l2) = ledgerKeys l1 ++ ledgerKeys l2 := by
  simp [ledgerKeys]

theorem insertIfAbsent_of_mem {l : Ledger} {k : Key} (h : k ∈ ledgerKeys l) (ts : Nat) :
    insertIfAbsent l k ts = l := by
  simp [insertIfAbsent, h]

theorem insertIfAbsent_of_not_mem {l : Ledger} {k : Key} (h : k ∉ ledgerKeys l) (ts : Nat) :
    insertIfAbsent l k ts = l ++ [⟨k.1, k.2, ts⟩] := by
  simp [insertIfAbsent, h]

theorem mem_ledgerKeys_insertIfAbsent {l : Ledger} {k x : Key} {ts : Nat} :
    x ∈ ledgerKeys (insertIfAbsent l k ts) ↔ x = k ∨ x ∈ ledgerKeys l := by
  by_cases h : k ∈ ledgerKeys l
  · rw [insertIfAbsent_of_mem h]
    constructor
    · exact Or.inr
    · rintro (rfl | hx) <;> assumption
  · rw [insertIfAbsent_of_not_mem h, ledgerKeys_append]
    simp [ledgerKeys, Row.key, or_comm]

/-! ### Unfolding lemmas for the service operations -/

theorem is_processed_of_mem_cache {s : Store} {k : Key} (h : k ∈ s.cache) (f : Bool) :
    is_processed s k f = .ok (true, s) := by
  simp [is_processed, h]

theorem is_processed_promote {s : Store} {k : Key} (hc : k ∉ s.cache)
    (hl : k ∈ ledgerKeys s.ledger) :
    is_processed s k false = .ok (true, { s with cache := cacheAdd s.cache k }) := by
  simp [is_processed, hc, hl]

theorem is_processed_miss {s : Store} {k : Key} (hc : k ∉ s.cache)
    (hl : k ∉ ledgerKeys s.ledger) :
    is_processed s k false = .ok (false, s) := by
  simp [is_processed, hc, hl]

theorem mark_cache (s : Store) (k : Key) (ts : Nat) (f : Bool) :
    (mark_processed s k ts f).cache = cacheAdd s.cache k := by
  cases f <;> rfl

theorem mark_ledger_fail (s : Store) (k : Key) (ts : Nat) :
    (mark_processed s k ts true).ledger = s.ledger := rfl

theorem mark_ledger_ok (s : Store) (k : Key) (ts : Nat) :
    (mark_processed s k ts false).ledger = insertIfAbsent s.ledger k ts := rfl

theorem mem_mark_cache (s : Store) (k : Key) (ts : Nat) (f : Bool) :
    k ∈ (mark_processed s k ts f).cache := by
  rw [mark_cache]; exact self_mem_cacheAdd s.cache k

theorem mem_mark_ledger (s : Store) (k : Key) (ts : Nat) :
    k ∈ ledgerKeys (mark_processed s k ts false).ledger := by
  rw [mark_ledger_ok]
  exact mem_ledgerKeys_insertIfAbsent.mpr (Or.inl rfl)

/-! ### Lemmas about the sorted warm-up query -/

theorem mem_insertDesc {r x : Row} {l : Ledger} :
    x ∈ insertDesc r l ↔ x = r ∨ x ∈ l := by
  induction l with
  | nil => simp [insertDesc]
  | cons y ys ih =>
      simp only [insertDesc]
      split
      · simp [List.mem_cons]
      · simp only [List.mem_cons, ih]
        tauto

theorem mem_sortDesc {x : Row} {l : Ledger} : x ∈ sortDesc l ↔ x ∈ l := by
  induction l with
  | nil => simp [sortDesc]
  | cons r rest ih => simp [sortDesc, mem_insertDesc, ih]

theorem recent_keys_subset {l : Ledger} {limit : Nat} {x : Key}
    (h : x ∈ recent_keys l limit) : x ∈ ledgerKeys l := by
  simp only [recent_keys, List.mem_map] at h
  obtain ⟨r, hr, rfl⟩ := h
  exact List.mem_map_of_mem Row.key (mem_sortDesc.mp (List.mem_of_mem_take hr))

theorem insertDesc_of_lt {r : Row} {l : Ledger}
    (h : ∀ x ∈ l, r.processed_at < x.processed_at) :
    insertDesc r l = l ++ [r] := by
  induction l with
  | nil => rfl
  | cons y ys ih =>
      simp only [insertDesc]
      rw [if_neg (Nat.not_le.mpr (h y (List.mem_cons_self y ys))),
          ih (fun x hx => h x (List.mem_cons_of_mem y hx))]
      rfl

theorem sortDesc_of_ascending {l : Ledger}
    (h : l.Pairwise (fun a b => a.processed_at < b.processed_at)) :
    sortDesc l = l.reverse := by
  induction l with
  | nil => rfl
  | cons r rest ih =>
      rw [List.pairwise_cons] at h
      show insertDesc r (sortDesc rest) = (r :: rest).reverse
      rw [ih h.2, List.reverse_cons, insertDesc_of_lt]
      intro x hx
      exact h.1 x (List.mem_reverse.mp hx)

theorem ledgerKeys_map_rowOf (keys : Nat → Key) (n : Nat) :
    ledgerKeys ((List.range n).map (rowOf keys)) = (List.range n).map keys := by
  simp only [ledgerKeys, List.map_map]
  have : Row.key ∘ rowOf keys = keys := funext fun i => rfl
  rw [this]

theorem pairwise_rows (keys : Nat → Key) (n : Nat) :
    ((List.range n).map (rowOf keys)).Pairwise
      (fun a b => a.processed_at < b.processed_at) := by
  rw [List.pairwise_map]
  exact List.pairwise_lt_range n

theorem reverse_map_range {α : Type} (f : Nat → α) (n : Nat) :
    ((List.range n).map f).reverse = (List.range n).map (fun j => f (n - 1 - j)) := by
  induction n with
  | zero => rfl
  | succ m ih =>
      conv_rhs => rw [List.range_succ_eq_map, List.map_cons, List.map_map]
      rw [List.range_succ, List.map_append, List.reverse_append, ih]
      simp only [List.map_cons, List.map_nil, List.reverse_cons, List.reverse_nil,
        List.nil_append, List.singleton_append]
      rw [show m + 1 - 1 - 0 = m from rfl]
      congr 1
      refine List.map_congr_left fun j hj => ?_
      show f (m - 1 - j) = f (m + 1 - 1 - (j + 1))
      congr 1
      omega

theorem take_map_range {α : Type} (g : Nat → α) {c n : Nat} (h : c ≤ n) :
    ((List.range n).map g).take c = (List.range c).map g := by
  rw [← List.map_take, List.take_range, Nat.min_eq_left h]

/-! ### Lemmas about operation traces -/

theorem run_append (s : Store) (l1 l2 : List Op) :
    run s (l1 ++ l2) = run (run s l1) l2 := by
  induction l1 generalizing s with
  | nil => rfl
  | cons op rest ih => exact ih (step s op)

theorem is_processed_fail {s : Store} {k : Key} (h : k ∉ s.cache) :
    is_processed s k true = .error .lookupReadFailure := by
  simp [is_processed, h]

theorem run_markOps_ledger (keys : Nat → Key) (hinj : Function.Injective keys) :
    ∀ n : Nat,
      (run initStore (markOps keys n)).ledger = (List.range n).map (rowOf keys) := by
  intro n
  induction n with
  | zero => rfl
  | succ m ih =>
      have h1 : markOps keys (m + 1) = markOps keys m ++ [Op.mark (keys m) m false] := by
        unfold markOps
        rw [List.range_succ, List.map_append]
        rfl
      rw [h1, run_append]
      show (mark_processed (run initStore (markOps keys m)) (keys m) m false).ledger = _
      have hnot : keys m ∉ ledgerKeys (run initStore (markOps keys m)).ledger := by
        rw [ih, ledgerKeys_map_rowOf]
        intro hmem
        rw [List.mem_map] at hmem
        obtain ⟨i, hi, he⟩ := hmem
        rw [List.mem_range] at hi
        exact absurd (hinj he) (Nat.ne_of_lt hi)
      rw [mark_ledger_ok, insertIfAbsent_of_not_mem hnot, ih, List.range_succ,
          List.map_append]
      rfl

theorem step_isProc_ledger (s : Store) (k : Key) (f : Bool) :
    (step s (.isProc k f)).ledger = s.ledger := by
  show (match is_processed s k f with
        | .ok (_, s') => s'
        | .error _ => s).ledger = s.ledger
  by_cases h1 : k ∈ s.cache
  · rw [is_processed_of_mem_cache h1 f]
  · cases f with
    | true => rw [is_processed_fail h1]
    | false =>
        by_cases h2 : k ∈ ledgerKeys s.ledger
        · rw [is_processed_promote h1 h2]
        · rw [is_processed_miss h1 h2]

theorem step_ledger_mono (s : Store) (op : Op) {k : Key}
    (h : k ∈ ledgerKeys s.ledger) : k ∈ ledgerKeys (step s op).ledger := by
  cases op with
  | isProc k' f => rw [step_isProc_ledger]; exact h
  | mark k' ts f =>
      cases f with
      | false =>
          show k ∈ ledgerKeys (insertIfAbsent s.ledger k' ts)
          exact mem_ledgerKeys_insertIfAbsent.mpr (Or.inr h)
      | true => exact h
  | restart lf => exact h
  | close => exact h

theorem step_cache_sub (s : Store) (op : Op) (hop : ∀ lf, op ≠ .restart lf) {k : Key}
    (h : k ∈ s.cache) : k ∈ (step s op).cache := by
  cases op with
  | isProc k' f =>
      show k ∈ (match is_processed s k' f with
                | .ok (_, s') => s'
                | .error _ => s).cache
      by_cases h1 : k' ∈ s.cache
      · rw [is_processed_of_mem_cache h1 f]; exact h
      · cases f with
        | true => rw [is_processed_fail h1]; exact h
        | false =>
            by_cases h2 : k' ∈ ledgerKeys s.ledger
            · rw [is_processed_promote h1 h2]
              exact mem_cacheAdd.mpr (Or.inr h)
            · rw [is_processed_miss h1 h2]; exact h
  | mark k' ts f =>
      show k ∈ (mark_processed s k' ts f).cache
      rw [mark_cache]
      exact mem_cacheAdd.mpr (Or.inr h)
  | restart lf => exact absurd rfl (hop lf)
  | close => exact h

theorem run_cache_sub {k : Key} (ops : List Op) (hops : ∀ lf, Op.restart lf ∉ ops)
    (s : Store) (h : k ∈ s.cache) : k ∈ (run s ops).cache := by
  induction ops generalizing s with
  | nil => exact h
  | cons op rest ih =>
      have hop : ∀ lf, op ≠ Op.restart lf :=
        fun lf he => hops lf (he ▸ List.mem_cons_self op rest)
      have hrest : ∀ lf, Op.restart lf ∉ rest :=
        fun lf hm => hops lf (List.mem_cons_of_mem op hm)
      exact ih hrest (step s op) (step_cache_sub s op hop h)

theorem step_ledger_nodup (s : Store) (op : Op)
    (h : (ledgerKeys s.ledger).Nodup) : (ledgerKeys (step s op).ledger).Nodup := by
  cases op with
  | isProc k f => rw [step_isProc_ledger]; exact h
  | mark k ts f =>
      cases f with
      | false =>
          show (ledgerKeys (insertIfAbsent s.ledger k ts)).Nodup
          by_cases hk : k ∈ ledgerKeys s.ledger
          · rw [insertIfAbsent_of_mem hk]; exact h
          · rw [insertIfAbsent_of_not_mem hk, ledgerKeys_append]
            refine List.Nodup.append h (List.nodup_singleton k) ?_
            intro a ha hb
            rw [show ledgerKeys [⟨k.1, k.2, ts⟩] = [k] from rfl] at hb
            exact hk ((List.mem_singleton.mp hb) ▸ ha)
      | true => exact h
  | restart lf => exact h
  | close => exact h

theorem run_ledger_nodup (ops : List Op) (s : Store)
    (h : (ledgerKeys s.ledger).Nodup) : (ledgerKeys (run s ops).ledger).Nodup := by
  induction ops generalizing s with
  | nil => exact h
  | cons op rest ih => exact ih (step s op) (step_ledger_nodup s op h)

theorem mem_cache_of_is_processed_true {s : Store} {k : Key} {f : Bool} {s' : Store}
    (h : is_processed s k f = .ok (true, s')) : k ∈ s'.cache := by
  unfold is_processed at h
  by_cases h1 : k ∈ s.cache
  · rw [if_pos h1] at h
    simp only [Except.ok.injEq, Prod.mk.injEq] at h
    exact h.2 ▸ h1
  · rw [if_neg h1] at h
    cases f with
    | true => simp at h
    | false =>
        simp only [Bool.false_eq_true, if_false] at h
        by_cases h2 : k ∈ ledgerKeys s.ledger
        · rw [if_pos h2] at h
          simp only [Except.ok.injEq, Prod.mk.injEq] at h
          exact h.2 ▸ self_mem_cacheAdd s.cache k
        · rw [if_neg h2] at h
          simp only [Except.ok.injEq, Prod.mk.injEq] at h
          exact absurd h.1.symm (by simp)

/-! ### Claim theorems -/

/-- C1: for every key, `is_processed` follows the two-tier protocol: a Cache
hit returns true without touching the Ledger (the answer does not depend on
the fault flag of the fallback query, which is never reached); on a Cache
miss with a Ledger hit the key is promoted into the Cache and true is
returned, and every subsequent call for that key answers true from the
Cache alone (again for every fault flag); when both tiers miss the call
returns false. -/
theorem is_processed_two_tier (s : Store) (k : Key) :
    (k ∈ s.cache → ∀ selectFails, is_processed s k selectFails = .ok (true, s)) ∧
    (k ∉ s.cache → k ∈ ledgerKeys s.ledger →
      is_processed s k false = .ok (true, { s with cache := cacheAdd s.cache k }) ∧
      ∀ selectFails, is_processed { s with cache := cacheAdd s.cache k } k selectFails =
        .ok (true, { s with cache := cacheAdd s.cache k })) ∧
    (k ∉ s.cache → k ∉ ledgerKeys s.ledger →
      is_processed s k false = .ok (false, s)) :=
  ⟨fun h f => is_processed_of_mem_cache h f,
   fun hc hl => ⟨is_processed_promote hc hl,
     fun f => is_processed_of_mem_cache (self_mem_cacheAdd s.cache k) f⟩,
   fun hc hl => is_processed_miss hc hl⟩

/-- C1 witness: a key present only in the Ledger is promoted on first
lookup. -/
theorem is_processed_two_tier_witness :
    ("t", "e") ∉ (Store.mk [] [⟨"t", "e", 0⟩]).cache ∧
    ("t", "e") ∈ ledgerKeys (Store.mk [] [⟨"t", "e", 0⟩]).ledger ∧
    is_processed (Store.mk [] [⟨"t", "e", 0⟩]) ("t", "e") false =
      .ok (true, Store.mk (cacheAdd [] ("t", "e")) [⟨"t", "e", 0⟩]) :=
  ⟨by decide, by decide,
   ((is_processed_two_tier (Store.mk [] [⟨"t", "e", 0⟩]) ("t", "e")).2.1
      (by decide) (by decide)).1⟩

/-- C2: after `mark_processed` returns, `is_processed` for the same key
answers true from the Cache, for every write-fault flag and every
read-fault flag (the Cache is written before `mark_processed` returns and
is checked first). -/
theorem mark_then_is_processed (s : Store) (k : Key) (ts : Nat)
    (insertFails selectFails : Bool) :
    is_processed (mark_processed s k ts insertFails) k selectFails =
      .ok (true, mark_processed s k ts insertFails) :=
  is_processed_of_mem_cache (mem_mark_cache s k ts insertFails) selectFails

/-- C4: `mark_processed` is idempotent: a second call with the same key
leaves the whole store state (Cache, Ledger rows and their recorded
`processed_at` timestamps) exactly as the first call left it, and
`is_processed` for that key stays true. -/
theorem mark_processed_idempotent (s : Store) (k : Key) (ts1 ts2 : Nat) :
    mark_processed (mark_processed s k ts1 false) k ts2 false =
      mark_processed s k ts1 false ∧
    ∀ f, is_processed (mark_processed (mark_processed s k ts1 false) k ts2 false) k f =
      .ok (true, mark_processed s k ts1 false) := by
  have hstate : mark_processed (mark_processed s k ts1 false) k ts2 false =
      mark_processed s k ts1 false := by
    show Store.mk (cacheAdd (mark_processed s k ts1 false).cache k)
        (insertIfAbsent (mark_processed s k ts1 false).ledger k ts2) =
      mark_processed s k ts1 false
    rw [cacheAdd_of_mem (mem_mark_cache s k ts1 false),
        insertIfAbsent_of_mem (mem_mark_ledger s k ts1) ts2]
  exact ⟨hstate, fun f => by
    rw [hstate]
    exact is_processed_of_mem_cache (mem_mark_cache s k ts1 false) f⟩

/-- C7: when the Ledger insert step of `mark_processed` fails, the key stays
in the Cache while the Ledger is unchanged, so the two tiers diverge:
`is_processed` reports true from the Cache for a key the Ledger does not
contain. -/
theorem failed_write_divergence (s : Store) (k : Key) (ts : Nat)
    (h : k ∉ ledgerKeys s.ledger) :
    k ∈ (mark_processed s k ts true).cache ∧
    (mark_processed s k ts true).ledger = s.ledger ∧
    k ∉ ledgerKeys (mark_processed s k ts true).ledger ∧
    ∀ f, is_processed (mark_processed s k ts true) k f =
      .ok (true, mark_processed s k ts true) :=
  ⟨mem_mark_cache s k ts true, rfl, h,
   fun f => is_processed_of_mem_cache (mem_mark_cache s k ts true) f⟩

/-- C7 witness: a failed write on a fresh store leaves the key Cache-only. -/
theorem failed_write_divergence_witness :
    ("t", "e") ∉ ledgerKeys initStore.ledger ∧
    ("t", "e") ∈ (mark_processed initStore ("t", "e") 0 true).cache ∧
    ("t", "e") ∉ ledgerKeys (mark_processed initStore ("t", "e") 0 true).ledger :=
  ⟨by decide,
   (failed_write_divergence initStore ("t", "e") 0 (by decide)).1,
   (failed_write_divergence initStore ("t", "e") 0 (by decide)).2.2.1⟩

/-- C6 counterexample: the claim that no durable-store error escapes the
service uncaught is false: the fallback `SELECT` of `is_processed` is not
wrapped in `try/except`, so a read failure there propagates (`.error`) and
no classified result (`.ok`) is returned. -/
theorem lookup_error_escapes_cex :
    ¬ ∀ (s : Store) (k : Key) (f : Bool), ∃ r, is_processed s k f = .ok r := by
  intro h
  obtain ⟨r, hr⟩ := h initStore ("t", "e") true
  simp [is_processed, initStore] at hr

/-- C6 amended: `mark_processed` catches its durable-write error (the call
returns normally with the Cache updated and the Ledger unchanged) and a
warm-up failure is caught during construction, but a Ledger read error on
`is_processed`'s fallback path (a Cache miss) propagates uncaught to the
caller. -/
theorem error_policy_amended :
    (∀ (s : Store) (k : Key), k ∉ s.cache →
      is_processed s k true = .error .lookupReadFailure) ∧
    (∀ (s : Store) (k : Key) (ts : Nat),
      mark_processed s k ts true = { s with cache := cacheAdd s.cache k }) ∧
    (∀ l : Ledger, mkStore l false true = .ok (Store.mk [] l)) :=
  ⟨fun s k h => by simp [is_processed, h],
   fun s k ts => rfl,
   fun l => rfl⟩

/-- C6 witness: the read error surfaces on a concrete fresh store. -/
theorem error_policy_amended_witness :
    ("t", "e") ∉ initStore.cache ∧
    is_processed initStore ("t", "e") true = .error .lookupReadFailure :=
  ⟨by decide, error_policy_amended.1 initStore ("t", "e") (by decide)⟩

/-- C10: construction only fails fatally on connection/schema errors; a
warm-up failure is caught, construction completes with the Cache left empty
(its initial contents on a fresh instance), and every Ledger key is still
served via the fallback path. -/
theorem construction_error_policy :
    (∀ (l : Ledger) (lf : Bool), mkStore l true lf = .error .initFailure) ∧
    (∀ l : Ledger, mkStore l false true = .ok (Store.mk [] l)) ∧
    (∀ (l : Ledger) (k : Key), k ∈ ledgerKeys l →
      is_processed (Store.mk [] l) k false =
        .ok (true, Store.mk (cacheAdd [] k) l)) :=
  ⟨fun l lf => rfl, fun l => rfl,
   fun l k h => is_processed_promote (by simp) h⟩

theorem countP_key_le_one {l : Ledger} (h : (ledgerKeys l).Nodup) (k : Key) :
    l.countP (fun r => decide (Row.key r = k)) ≤ 1 := by
  induction l with
  | nil => simp
  | cons r rest ih =>
      have h' : (ledgerKeys rest).Nodup ∧ Row.key r ∉ ledgerKeys rest := by
        rw [show ledgerKeys (r :: rest) = Row.key r :: ledgerKeys rest from rfl,
            List.nodup_cons] at h
        exact ⟨h.2, h.1⟩
      rw [List.countP_cons]
      by_cases hk : Row.key r = k
      · have hz : rest.countP (fun r => decide (Row.key r = k)) = 0 := by
          rw [List.countP_eq_zero]
          intro a ha hpa
          have hak : Row.key a = k := of_decide_eq_true hpa
          have hmem : Row.key a ∈ ledgerKeys rest := List.mem_map_of_mem Row.key ha
          rw [hak, ← hk] at hmem
          exact h'.2 hmem
        simp [hz, hk]
      · have hle := ih h'.1
        simp only [hk, decide_eq_true_eq, if_false, decide_False, Nat.add_zero]
        simpa using hle

/-- C3: starting from a fresh database, after any sequence of operations
(in particular any sequence of `mark_processed` calls, repeated keys
included, with arbitrary fault flags) the Ledger holds at most one row per
composite key; moreover a write for an already-present key is a no-op on
the Ledger and returns normally, not an error (only the idempotent Cache
add happens). -/
theorem ledger_at_most_one_row :
    (∀ (ops : List Op) (k : Key),
      (run initStore ops).ledger.countP (fun r => decide (Row.key r = k)) ≤ 1) ∧
    (∀ (s : Store) (k : Key) (ts : Nat), k ∈ ledgerKeys s.ledger →
      mark_processed s k ts false = { s with cache := cacheAdd s.cache k }) := by
  constructor
  · intro ops k
    exact countP_key_le_one
      (run_ledger_nodup ops initStore (by simp [initStore, ledgerKeys])) k
  · intro s k ts h
    show Store.mk (cacheAdd s.cache k) (insertIfAbsent s.ledger k ts) =
      { s with cache := cacheAdd s.cache k }
    rw [insertIfAbsent_of_mem h]

/-- C3 witness: a second write for a present key only touches the Cache.  -/
theorem ledger_at_most_one_row_witness :
    ("t", "e") ∈ ledgerKeys [Row.mk "t" "e" 3] ∧
    mark_processed (Store.mk [] [Row.mk "t" "e" 3]) ("t", "e") 9 false =
      Store.mk (cacheAdd [] ("t", "e")) [Row.mk "t" "e" 3] :=
  ⟨by decide,
   ledger_at_most_one_row.2 (Store.mk [] [Row.mk "t" "e" 3]) ("t", "e") 9 (by decide)⟩

/-- C8: a key never passed to `mark_processed` is in neither tier after any
sequence of operations from a fresh store, and `is_processed` for it
returns false leaving the whole state (Cache and Ledger) unchanged. -/
theorem unknown_key_no_side_effects (k : Key) (ops : List Op)
    (h : ∀ ts f, Op.mark k ts f ∉ ops) :
    k ∉ (run initStore ops).cache ∧
    k ∉ ledgerKeys (run initStore ops).ledger ∧
    is_processed (run initStore ops) k false = .ok (false, run initStore ops) := by
  have main : ∀ (ops : List Op), (∀ ts f, Op.mark k ts f ∉ ops) → ∀ s : Store,
      k ∉ s.cache ∧ k ∉ ledgerKeys s.ledger →
      k ∉ (run s ops).cache ∧ k ∉ ledgerKeys (run s ops).ledger := by
    intro ops
    induction ops with
    | nil => intro _ s hs; exact hs
    | cons op rest ih =>
        intro hops s hs
        have hrest : ∀ ts f, Op.mark k ts f ∉ rest :=
          fun ts f hm => hops ts f (List.mem_cons_of_mem op hm)
        refine ih hrest (step s op) ?_
        cases op with
        | isProc k' f =>
            refine ⟨?_, by rw [step_isProc_ledger]; exact hs.2⟩
            show k ∉ (match is_processed s k' f with
                      | .ok (_, s') => s'
                      | .error _ => s).cache
            by_cases h1 : k' ∈ s.cache
            · rw [is_processed_of_mem_cache h1 f]; exact hs.1
            · cases f with
              | true => rw [is_processed_fail h1]; exact hs.1
              | false =>
                  by_cases h2 : k' ∈ ledgerKeys s.ledger
                  · rw [is_processed_promote h1 h2]
                    intro hmem
                    rcases mem_cacheAdd.mp hmem with rfl | hmem
                    · exact hs.2 h2
                    · exact hs.1 hmem
                  · rw [is_processed_miss h1 h2]; exact hs.1
        | mark k' ts f =>
            have hne : k ≠ k' := fun he =>
              hops ts f (he ▸ List.mem_cons_self (Op.mark k' ts f) rest)
            constructor
            · show k ∉ (mark_processed s k' ts f).cache
              rw [mark_cache]
              intro hmem
              rcases mem_cacheAdd.mp hmem with he | hmem
              · exact hne he
              · exact hs.1 hmem
            · cases f with
              | true => exact hs.2
              | false =>
                  show k ∉ ledgerKeys (insertIfAbsent s.ledger k' ts)
                  intro hmem
                  rcases mem_ledgerKeys_insertIfAbsent.mp hmem with he | hmem
                  · exact hne he
                  · exact hs.2 hmem
        | restart lf =>
            refine ⟨?_, hs.2⟩
            show k ∉ _load_cache s.ledger lf []
            cases lf with
            | true => simp [_load_cache]
            | false =>
                show k ∉ recent_keys s.ledger CACHE_SIZE
                exact fun hmem => hs.2 (recent_keys_subset hmem)
        | close => exact hs
  have hfinal := main ops h initStore ⟨by simp [initStore], by simp [initStore, ledgerKeys]⟩
  exact ⟨hfinal.1, hfinal.2, is_processed_miss hfinal.1 hfinal.2⟩

/-- C8 witness: an unrelated trace leaves a never-marked key unknown and
its lookup effect-free. -/
theorem unknown_key_no_side_effects_witness :
    (∀ ts f, Op.mark ("t", "never-seen") ts f ∉
      [Op.mark ("a", "b") 5 false, Op.isProc ("t", "never-seen") false]) ∧
    is_processed (run initStore [Op.mark ("a", "b") 5 false,
        Op.isProc ("t", "never-seen") false]) ("t", "never-seen") false =
      .ok (false, run initStore [Op.mark ("a", "b") 5 false,
        Op.isProc ("t", "never-seen") false]) := by
  have hni : ∀ ts f, Op.mark ("t", "never-seen") ts f ∉
      [Op.mark ("a", "b") 5 false, Op.isProc ("t", "never-seen") false] := by
    intro ts f
    simp
  exact ⟨hni, (unknown_key_no_side_effects ("t", "never-seen")
    [Op.mark ("a", "b") 5 false, Op.isProc ("t", "never-seen") false] hni).2.2⟩

/-- C9 counterexample: the claim that once `is_processed` observes true it
can never later observe false over the same persisted state is false across
reconstruction: after a failed durable write the key is Cache-only, so
`is_processed` observes true; reconstruction over the same (unchanged,
empty) Ledger warms an empty Cache, and the next `is_processed` observes
false. -/
theorem monotone_membership_cex :
    ¬ ∀ (s : Store) (k : Key) (f : Bool) (s' : Store),
        is_processed s k f = .ok (true, s') →
        ∀ (ops : List Op) (f' b : Bool) (s'' : Store),
          is_processed (run s' ops) k f' = .ok (b, s'') → b = true := by
  intro h
  have h1 : is_processed (Store.mk [("t", "e")] []) ("t", "e") false =
      .ok (true, Store.mk [("t", "e")] []) := rfl
  have h2 : is_processed (run (Store.mk [("t", "e")] []) [Op.restart false])
      ("t", "e") false =
      .ok (false, run (Store.mk [("t", "e")] []) [Op.restart false]) := rfl
  exact absurd
    (h (Store.mk [("t", "e")] []) ("t", "e") false (Store.mk [("t", "e")] []) h1
      [Op.restart false] false false
      (run (Store.mk [("t", "e")] []) [Op.restart false]) h2)
    (by simp)

/-- C9 amended: no operation (lookup, write, close, or reconstruction with
warm-up) ever removes a key from the Ledger — that tier only ever goes
absent to present — and once `is_processed` observes true for a key, every
later `is_processed` call on the same store instance (any further lookups,
writes and closes, with arbitrary fault flags, but no reconstruction)
still observes true; across reconstruction the guarantee holds only for
keys whose Ledger write succeeded, since a Cache-only key (failed write)
is lost when a fresh instance warms from the unchanged Ledger. -/
theorem monotone_membership :
    (∀ (s : Store) (op : Op) (k : Key),
      k ∈ ledgerKeys s.ledger → k ∈ ledgerKeys (step s op).ledger) ∧
    (∀ (s : Store) (k : Key) (f : Bool) (s' : Store),
      is_processed s k f = .ok (true, s') →
      ∀ ops : List Op, (∀ lf, Op.restart lf ∉ ops) →
      ∀ f', is_processed (run s' ops) k f' = .ok (true, run s' ops)) := by
  refine ⟨fun s op k h => step_ledger_mono s op h, ?_⟩
  intro s k f s' h ops hops f'
  exact is_processed_of_mem_cache
    (run_cache_sub ops hops s' (mem_cache_of_is_processed_true h)) f'

/-- C9 witness: a true observation survives a later unrelated write. -/
theorem monotone_membership_witness :
    is_processed (Store.mk [("t", "e")] []) ("t", "e") false =
      .ok (true, Store.mk [("t", "e")] []) ∧
    (∀ lf, Op.restart lf ∉ [Op.mark ("a", "b") 5 false]) ∧
    is_processed (run (Store.mk [("t", "e")] []) [Op.mark ("a", "b") 5 false])
        ("t", "e") true =
      .ok (true, run (Store.mk [("t", "e")] []) [Op.mark ("a", "b") 5 false]) := by
  have h1 : is_processed (Store.mk [("t", "e")] []) ("t", "e") false =
      .ok (true, Store.mk [("t", "e")] []) := by
    exact is_processed_of_mem_cache (by decide) false
  have h2 : ∀ lf, Op.restart lf ∉ [Op.mark ("a", "b") 5 false] := by decide
  exact ⟨h1, h2, monotone_membership.2 (Store.mk [("t", "e")] []) ("t", "e") false
    (Store.mk [("t", "e")] []) h1 [Op.mark ("a", "b") 5 false] h2 true⟩

/-- C10 witness: after a failed warm-up the store still answers from the
Ledger. -/
theorem construction_error_policy_witness :
    ("t", "e") ∈ ledgerKeys [Row.mk "t" "e" 7] ∧
    is_processed (Store.mk [] [Row.mk "t" "e" 7]) ("t", "e") false =
      .ok (true, Store.mk (cacheAdd [] ("t", "e")) [Row.mk "t" "e" 7]) :=
  ⟨by decide, construction_error_policy.2.2 [Row.mk "t" "e" 7] ("t", "e") (by decide)⟩

/-- C5: after marking `N > CACHE_SIZE` distinct keys in sequence (strictly
increasing write timestamps), a freshly constructed store's warm-up loads
into the Cache exactly the `CACHE_SIZE` most-recently-marked keys, in
`processed_at`-descending order (most recent first), and the oldest key —
absent from the warmed Cache — is still reported processed via the Ledger
fallback (with promotion). -/
theorem warmup_loads_recent (keys : Nat → Key) (N : Nat)
    (hinj : Function.Injective keys) (hN : CACHE_SIZE < N) :
    ∃ s : Store,
      mkStore (run initStore (markOps keys N)).ledger false false = .ok s ∧
      s.cache = (List.range CACHE_SIZE).map (fun j => keys (N - 1 - j)) ∧
      keys 0 ∉ s.cache ∧
      is_processed s (keys 0) false =
        .ok (true, { s with cache := cacheAdd s.cache (keys 0) }) := by
  have hL := run_markOps_ledger keys hinj N
  have hcache : recent_keys (run initStore (markOps keys N)).ledger CACHE_SIZE =
      (List.range CACHE_SIZE).map (fun j => keys (N - 1 - j)) := by
    show ((sortDesc (run initStore (markOps keys N)).ledger).take CACHE_SIZE).map
        Row.key = _
    rw [hL, sortDesc_of_ascending (pairwise_rows keys N), reverse_map_range,
        take_map_range (fun j => rowOf keys (N - 1 - j)) (Nat.le_of_lt hN),
        List.map_map]
    exact List.map_congr_left fun j hj => rfl
  have hnc : keys 0 ∉ (List.range CACHE_SIZE).map (fun j => keys (N - 1 - j)) := by
    intro hmem
    rw [List.mem_map] at hmem
    obtain ⟨j, hj, he⟩ := hmem
    rw [List.mem_range] at hj
    have h0 := hinj he
    omega
  have hlk : keys 0 ∈ ledgerKeys (run initStore (markOps keys N)).ledger := by
    rw [hL, ledgerKeys_map_rowOf]
    exact List.mem_map_of_mem keys (List.mem_range.mpr (by omega))
  refine ⟨Store.mk (recent_keys (run initStore (markOps keys N)).ledger CACHE_SIZE)
      (run initStore (markOps keys N)).ledger, rfl, hcache, ?_, ?_⟩
  · show keys 0 ∉ recent_keys (run initStore (markOps keys N)).ledger CACHE_SIZE
    rw [hcache]
    exact hnc
  · refine is_processed_promote ?_ hlk
    show keys 0 ∉ recent_keys (run initStore (markOps keys N)).ledger CACHE_SIZE
    rw [hcache]
    exact hnc

theorem wkeys_injective : Function.Injective wkeys := by
  intro i j h
  have h2 : List.replicate i 'a' = List.replicate j 'a' := by
    have h1 : String.mk (List.replicate i 'a') = String.mk (List.replicate j 'a') :=
      congrArg Prod.fst h
    injection h1
  have h3 := congrArg List.length h2
  simpa using h3

/-- C5 witness: 100001 distinct keys, one more than `CACHE_SIZE`. -/
theorem warmup_loads_recent_witness :
    Function.Injective wkeys ∧ CACHE_SIZE < 100001 ∧
    (∃ s : Store,
      mkStore (run initStore (markOps wkeys 100001)).ledger false false = .ok s ∧
      s.cache = (List.range CACHE_SIZE).map (fun j => wkeys (100001 - 1 - j)) ∧
      wkeys 0 ∉ s.cache ∧
      is_processed s (wkeys 0) false =
        .ok (true, { s with cache := cacheAdd s.cache (wkeys 0) })) :=
  ⟨wkeys_injective, by decide,
   warmup_loads_recent wkeys 100001 wkeys_injective (by decide)⟩

end DedupStore

